import Mathlib

/-!
Verification development for the LLM-MCTS-Inference repository.

The Python sources are shallowly embedded as follows.

* Python floats are modelled as rationals (the spec reasons about the
  arithmetic at mathematical precision); the transcendental parts of the
  UCT score use the real numbers.
* The mutable object graph of `Node` instances is modelled as an arena: a
  list of node records in allocation order, with parent and child links as
  indices into that list.  The root is allocated first, so parent indices
  are strictly smaller than child indices.
* The dynamically typed argument of `normalize_rating_score` is modelled by
  the inductive `PyValue`; `TypeError` and `ValueError` by `PyErr`.
* The external LLM collaborators (critique, refinement, rating, initial
  answer) are parameters: plain functions standing for the swappable
  interface the spec assigns them.
-/

/-- Dynamically typed Python value reaching `normalize_rating_score`. -/
inductive PyValue where
  | pynone
  | pyint (n : ℤ)
  | pyfloat (q : ℚ)
  | pystr (s : String)
  | pyother
  deriving DecidableEq

/-- Python exception classes raised by `normalize_rating_score`. -/
inductive PyErr where
  | typeError
  | valueError
  deriving DecidableEq

/-- Python `str.replace(c, "", 1)` on the character list: removes the first
occurrence of `c`, wherever it occurs. -/
def removeFirst (c : Char) : List Char → List Char
  | [] => []
  | x :: xs => if x = c then xs else x :: removeFirst c xs

/-- Python `str.isdigit` restricted to ASCII: nonempty and all decimal
digits. -/
def isdigitStr (l : List Char) : Bool := !l.isEmpty && l.all Char.isDigit

/-- `is_numeric_score` from src/llm_mcts_inference/utils/utils.py: remove the
first `-` (anywhere), then the first `.` (anywhere), and test `isdigit`. -/
def is_numeric_score (s : String) : Bool :=
  isdigitStr (removeFirst '.' (removeFirst '-' s.data))

/-- Numeric value of a decimal digit character. -/
def digitVal (c : Char) : ℕ := c.toNat - 48

/-- State machine for CPython `float()` parsing on the fragment reachable
from `normalize_rating_score`: decimal digits with at most one decimal
point and at least one digit.  Exponent, infinity, nan, whitespace and
underscore forms are not represented; no string accepted by
`is_numeric_score` contains the characters those forms need.  Arguments:
remaining characters, whether a dot was seen, whether a digit was seen, the
accumulated value, and the scale of the next fractional digit. -/
def floatAux : List Char → Bool → Bool → ℚ → ℚ → Option ℚ
  | [], _, seenDigit, acc, _ => if seenDigit then some acc else none
  | c :: rest, seenDot, seenDigit, acc, scale =>
    if c = '.' then
      if seenDot then none else floatAux rest true seenDigit acc (1 / 10)
    else if c.isDigit then
      if seenDot then floatAux rest true true (acc + digitVal c * scale) (scale / 10)
      else floatAux rest false true (10 * acc + digitVal c) 1
    else none

/-- CPython `float()` on a character list: an optional single leading sign
followed by the unsigned form accepted by `floatAux`. -/
def pyFloatChars (l : List Char) : Option ℚ :=
  match l with
  | [] => none
  | c :: rest =>
    if c = '-' then (floatAux rest false false 0 1).map Neg.neg
    else if c = '+' then floatAux rest false false 0 1
    else floatAux (c :: rest) false false 0 1

/-- CPython `float()` on a string, `none` standing for the `ValueError` the
builtin raises on an unparsable string. -/
def pyFloat (s : String) : Option ℚ := pyFloatChars s.data

/-- `normalize_rating_score` from src/llm_mcts_inference/utils/utils.py:
`TypeError` for `None`; `ValueError` for an input that is neither `int` nor
`str`; for a string, `ValueError` when `is_numeric_score` rejects it, and
also when the subsequent `float(score)` call itself fails; otherwise the
value is clamped to [0, 95] and divided by 100. -/
def normalize_rating_score : PyValue → Except PyErr ℚ
  | .pynone => .error .typeError
  | .pyint n => .ok (max 0 (min 95 (n : ℚ)) / 100)
  | .pyfloat _ => .error .valueError
  | .pyother => .error .valueError
  | .pystr s =>
    if is_numeric_score s then
      match pyFloat s with
      | some q => .ok (max 0 (min 95 q) / 100)
      | none => .error .valueError
    else .error .valueError

/-- Body of a candidate numeric string once an optional single leading minus
sign is dropped. -/
def specBody : List Char → List Char
  | [] => []
  | c :: rest => if c = '-' then rest else c :: rest

/-- Modelled from the spec (section 4.3): a string is numeric iff it
optionally starts with a single minus sign, otherwise consists of digits
and at most one decimal point, and contains at least one digit.  Declared
only to compare the specified acceptance set against the implemented
`is_numeric_score`. -/
def specNumericStr (s : String) : Prop :=
  (∀ c ∈ specBody s.data, c.isDigit ∨ c = '.') ∧
    (specBody s.data).count '.' ≤ 1 ∧ ∃ c ∈ specBody s.data, c.isDigit

instance specNumericStrDecidable : DecidablePred specNumericStr := fun s => by
  unfold specNumericStr
  infer_instance

/-- Tree node: class Node of src/llm_mcts_inference/mcts.py.  Object
references become indices into an arena list (root first); floats become
rationals. -/
structure Node where
  original_prompt : String
  answer : String
  parent : Option ℕ
  max_children : ℕ
  exploration_weight : ℚ
  children : List ℕ
  visits : ℕ
  value : ℚ
  level : ℕ
  deriving DecidableEq

/-- Node.__init__: fresh node with no children, visits 1 and value 0; the
level argument of the Python constructor is ignored by the body, which
recomputes the level from the parent link (0 for the root). -/
def Node.make (st : List Node) (original_prompt answer : String)
    (max_children : ℕ) (exploration_weight : ℚ) (parent : Option ℕ) : Node :=
  { original_prompt := original_prompt
    answer := answer
    parent := parent
    max_children := max_children
    exploration_weight := exploration_weight
    children := []
    visits := 1
    value := 0
    level :=
      match parent with
      | none => 0
      | some p =>
        match st.get? p with
        | some pd => pd.level + 1
        | none => 0 }

/-- Node.is_fully_expanded: len(children) >= max_children. -/
def Node.is_fully_expanded (nd : Node) : Bool :=
  decide (nd.max_children ≤ nd.children.length)

/-- Node.add_child: appends a child index; no maxChildren validation. -/
def Node.add_child (nd : Node) (childId : ℕ) : Node :=
  { nd with children := nd.children ++ [childId] }

/-- Fold computed by Python max(children, key=visits): the current best is
replaced only on strictly larger visits, so the first maximum wins. -/
def pickMaxVisits (best : Node) : List Node → Node
  | [] => best
  | c :: cs => if best.visits < c.visits then pickMaxVisits c cs else pickMaxVisits best cs

/-- Node.most_visited_child on the arena: resolve the child indices and take
the first child with maximal visits; none models the ValueError Python max
raises on an empty sequence. -/
def Node.most_visited_child (st : List Node) (nd : Node) : Option Node :=
  match nd.children.filterMap (fun i => st.get? i) with
  | [] => none
  | c :: cs => some (pickMaxVisits c cs)

/-- UCT weight of one child (loop body of Node.best_child): positive
infinity for an unvisited child; otherwise value/visits plus
explorationWeight times sqrt(ln(parent visits) / child visits).  Scores
live in the extended reals, the float infinity being the top element. -/
noncomputable def uctWeight (parentVisits : ℕ) (w : ℚ) (child : Node) : EReal :=
  if child.visits = 0 then ⊤
  else ((((child.value / (child.visits : ℚ)) : ℝ) +
    (w : ℝ) * Real.sqrt (Real.log (parentVisits : ℝ) / (child.visits : ℝ)) : ℝ) : EReal)

/-- Maximum of a list of scores (bottom for the empty list). -/
noncomputable def listMax : List EReal → EReal
  | [] => ⊥
  | x :: xs => max x (listMax xs)

/-- First index attaining the maximum: the semantics of np.argmax. -/
noncomputable def argmaxIdx : List EReal → ℕ
  | [] => 0
  | x :: xs => if listMax xs ≤ x then 0 else argmaxIdx xs + 1

/-- Node.best_child on the arena: child of maximal UCT weight, first
occurrence on ties; none models the failure on an empty children list. -/
noncomputable def Node.best_child (st : List Node) (nd : Node) : Option Node :=
  (nd.children.filterMap (fun i => st.get? i)).get?
    (argmaxIdx ((nd.children.filterMap (fun i => st.get? i)).map
      (uctWeight nd.visits nd.exploration_weight)))

/-- One visit/value update of backpropagation. -/
def bumpNode (r : ℚ) (nd : Node) : Node :=
  { nd with visits := nd.visits + 1, value := nd.value + r }

/-- While-loop of MCTS.backpropagate with explicit fuel: follow parent
links, adding one visit and the reward at every node.  On wellformed arenas
parent indices strictly decrease, so fuel st.length never runs out. -/
def bpAux (r : ℚ) : ℕ → List Node → Option ℕ → List Node
  | _, st, none => st
  | 0, st, some _ => st
  | fuel + 1, st, some i =>
    match st.get? i with
    | none => st
    | some nd => bpAux r fuel (st.set i (bumpNode r nd)) nd.parent

/-- MCTS.backpropagate on the arena. -/
def backpropagate (st : List Node) (node : Option ℕ) (r : ℚ) : List Node :=
  bpAux r st.length st node

/-- Indices the backpropagation loop visits, in order. -/
def chainAux : ℕ → List Node → Option ℕ → List ℕ
  | _, _, none => []
  | 0, _, some _ => []
  | fuel + 1, st, some i =>
    match st.get? i with
    | none => []
    | some nd => i :: chainAux fuel st nd.parent

/-- The parent chain from a node up to the root. -/
def parentChain (st : List Node) (node : Option ℕ) : List ℕ :=
  chainAux st.length st node

/-- Visit/value update applied k times with the same reward. -/
def bumpN (r : ℚ) (k : ℕ) (nd : Node) : Node :=
  { nd with visits := nd.visits + k, value := nd.value + k * r }

/-- Visit/value update of a whole sequence of backpropagated rewards. -/
def bumpList (rs : List ℚ) (nd : Node) : Node :=
  { nd with visits := nd.visits + rs.length, value := nd.value + rs.sum }

/-- Allocation and add_child part of one expand-loop iteration: the new
child is built from the current answer of the parent and appended to the
parent's children before any refinement happens. -/
def expandAdd (prompt : String) (maxC : ℕ) (w : ℚ) (st : List Node)
    (i : ℕ) : List Node :=
  match st.get? i with
  | none => st
  | some nd =>
    (st ++ [Node.make st prompt nd.answer maxC w (some i)]).set i
      (nd.add_child st.length)

/-- Refinement part of one expand-loop iteration: feedback is generated
from the answer stored in the fresh child, an improved version from that
answer and the feedback, and the result overwrites the child's answer. -/
def expandRefine (fb : String → String) (imp : String → String → String)
    (st : List Node) (childId : ℕ) : List Node :=
  match st.get? childId with
  | none => st
  | some cd => st.set childId { cd with answer := imp cd.answer (fb cd.answer) }

/-- One iteration of the expand loop. -/
def expandStep (fb : String → String) (imp : String → String → String)
    (prompt : String) (maxC : ℕ) (w : ℚ) (st : List Node) (i : ℕ) : List Node :=
  expandRefine fb imp (expandAdd prompt maxC w st i) st.length

/-- MCTS.expand without the final random choice: the loop body runs
max_children - len(children) times, the count being computed once before
the loop starts (Python range semantics, empty for a nonpositive count). -/
def expandState (fb : String → String) (imp : String → String → String)
    (prompt : String) (maxC : ℕ) (w : ℚ) (st : List Node) (i : ℕ) : List Node :=
  match st.get? i with
  | none => st
  | some nd => (fun s => expandStep fb imp prompt maxC w s i)^[maxC - nd.children.length] st

/-- MCTS.expand including the final random.choice(node.children): the
random draw is modelled by the index pick into the children list of the
expanded node.  The list drawn from is the full children list of the node,
not only its newly created part. -/
def expandChoice (fb : String → String) (imp : String → String → String)
    (prompt : String) (maxC : ℕ) (w : ℚ) (st : List Node) (i : ℕ)
    (pick : ℕ) : Option ℕ :=
  match (expandState fb imp prompt maxC w st i).get? i with
  | none => none
  | some nd => nd.children.get? pick

/-- Record of a freshly expanded child after its refinement: built from the
parent's answer, refined through the critique and refinement collaborators,
one level below the parent. -/
def newChild (fb : String → String) (imp : String → String → String)
    (prompt : String) (maxC : ℕ) (w : ℚ) (nd : Node) (i : ℕ) : Node :=
  { original_prompt := prompt
    answer := imp nd.answer (fb nd.answer)
    parent := some i
    max_children := maxC
    exploration_weight := w
    children := []
    visits := 1
    value := 0
    level := nd.level + 1 }

/-- Structural invariant of the search tree (spec section 3): the root and
only the root has level 0, a child sits one level below its parent (which
was allocated earlier), every node has been visited at least once, and no
node holds more children than its cap. -/
def TreeInv (maxC : ℕ) (st : List Node) : Prop :=
  ∀ i nd, st.get? i = some nd →
    (nd.parent = none ↔ nd.level = 0) ∧
    (∀ p, nd.parent = some p → p < i ∧
      ∃ pd, st.get? p = some pd ∧ nd.level = pd.level + 1) ∧
    1 ≤ nd.visits ∧ nd.children.length ≤ nd.max_children ∧
    nd.max_children = maxC

/-- Request-settings dict with the keys the inference module reads. -/
structure RequestSettings where
  base_url : String
  api_key : String
  model_name : String
  max_tokens : ℤ
  temperature : ℚ
  top_p : ℚ
  seed : ℤ
  deriving DecidableEq

/-- generate_initial_answer from src/llm_mcts_inference/inference.py: it
assigns temperature 0.0 and top_p 1.0 into the settings dict in place and
then issues one completion request.  The result carries the answer, the
list of requests issued, and the mutated dict as the caller sees it
afterwards. -/
def generate_initial_answer (oracle : String → RequestSettings → String)
    (prompt : String) (model_settings : RequestSettings) :
    String × List (String × RequestSettings) × RequestSettings :=
  ((oracle prompt { model_settings with temperature := 0, top_p := 1 }),
   [(prompt, { model_settings with temperature := 0, top_p := 1 })],
   { model_settings with temperature := 0, top_p := 1 })

/-- State of the MCTS driver object. -/
structure MCTS where
  original_prompt : String
  iterations : ℕ
  max_children : ℕ
  request_settings : RequestSettings
  verbose : Bool
  exploration_weight : ℚ
  initial_answer : String
  tree : List Node

/-- MCTS.__init__: one blocking call obtains the initial answer, the root
node is built from it, and the stored request_settings field aliases the
dict generate_initial_answer just mutated.  The second component is the
list of collaborator requests issued during construction. -/
def MCTS.init (oracle : String → RequestSettings → String)
    (original_prompt : String) (request_settings : RequestSettings)
    (iterations max_children : ℕ) (verbose : Bool)
    (exploration_weight : ℚ) : MCTS × List (String × RequestSettings) :=
  ({ original_prompt := original_prompt
     iterations := iterations
     max_children := max_children
     request_settings := (generate_initial_answer oracle original_prompt request_settings).2.2
     verbose := verbose
     exploration_weight := exploration_weight
     initial_answer := (generate_initial_answer oracle original_prompt request_settings).1
     tree := [Node.make [] original_prompt
       (generate_initial_answer oracle original_prompt request_settings).1
       max_children exploration_weight none] },
   (generate_initial_answer oracle original_prompt request_settings).2.1)

/-- DEFAULT_REQUEST_SETTINGS from src/llm_mcts_inference/config/settings.py
(string-valued keys not present there are left empty; the model name is the
default of DEFAULT_SETTINGS). -/
def default_request_settings : RequestSettings :=
  { base_url := ""
    api_key := "EMPTY"
    model_name := "openai/gpt-4o-mini"
    max_tokens := 8192
    temperature := 1
    top_p := 9 / 10
    seed := 1337 }

/-- Structured rating response schema (prompts.py): the rating field is an
integer by the pydantic schema. -/
structure RatingResponse where
  justification : String
  rating : ℤ

/-- Body of generate_rating from src/llm_mcts_inference/inference.py given
the structured response: the rating field is an int by schema, so the
isinstance repair branch is skipped and the value goes straight through
normalize_rating_score. -/
def generate_rating (resp : RatingResponse) : Except PyErr ℚ :=
  normalize_rating_score (.pyint resp.rating)

/-- Keyword binding check for a Python call that passes every argument by
keyword, against a callee none of whose parameters has a default: the call
binds iff every keyword names a parameter and every parameter receives a
keyword. -/
def kwCallBindsOk (params kwargs : List String) : Bool :=
  kwargs.all (fun k => params.contains k) && params.all (fun p => kwargs.contains p)

/-- Parameter names of generate_rating (inference.py). -/
def generate_rating_params : List String :=
  ["prompt", "answer", "model_settings", "rating_schema"]

/-- Keyword arguments MCTS.simulate passes to generate_rating (mcts.py). -/
def simulate_rating_kwargs : List String :=
  ["prompt", "answer", "request_settings"]

/-- Method names the class MCTS defines (mcts.py). -/
def mctsMethodNames : List String :=
  ["__init__", "search", "select", "expand", "backpropagate", "simulate",
   "print_to_terminal"]

/-- MCTS attributes MonteCarloLLM.generate calls to build its MCTSResult
(MonteCarloLLM.py): the answer from search(), the path from get_best_path()
and the tree from get_tree(). -/
def generateResultAttrs : List String := ["search", "get_best_path", "get_tree"]

/-- Return value of MCTS.search after the iteration loop: the answer of the
most visited child of the root (the root sits at index 0 of the arena). -/
def searchReturn (st : List Node) : Option String :=
  (st.get? 0).bind fun root => (Node.most_visited_child st root).map Node.answer

/-- Wellformedness of one parent link: absent, or pointing at an earlier
node of the arena. -/
def parentOkB (st : List Node) (i : ℕ) : Bool :=
  match (st.get? i).map Node.parent with
  | some (some p) => decide (p < i)
  | _ => true

/-- Arenas whose parent links all point backwards in allocation order;
every state the driver builds satisfies this. -/
def ParentDec (st : List Node) : Prop := ∀ i < st.length, parentOkB st i = true

instance parentDecDecidable (st : List Node) : Decidable (ParentDec st) := by
  unfold ParentDec
  infer_instance

/-- Tree states reachable through the driver's mutating operations: root
construction, expansion (with arbitrary critique and refinement
collaborators), and backpropagation from any node. -/
inductive Reachable (prompt : String) (maxC : ℕ) (w : ℚ) : List Node → Prop
  | init (answer : String) :
      Reachable prompt maxC w [Node.make [] prompt answer maxC w none]
  | expand {st : List Node} (i : ℕ) (fb : String → String)
      (imp : String → String → String) : Reachable prompt maxC w st →
      Reachable prompt maxC w (expandState fb imp prompt maxC w st i)
  | backprop {st : List Node} (i : ℕ) (r : ℚ) : Reachable prompt maxC w st →
      Reachable prompt maxC w (backpropagate st (some i) r)


/-- Concrete collaborator stub: fixed critique text. -/
def c2fb : String → String := fun _ => "feedback"

/-- Concrete collaborator stub: fixed refined answer. -/
def c2imp : String → String → String := fun _ _ => "improved"

/-- Concrete partially expanded parent (one pre-existing child, cap 2). -/
def c2Root : Node :=
  { original_prompt := "p", answer := "r", parent := none, max_children := 2,
    exploration_weight := 1, children := [1], visits := 1, value := 0,
    level := 0 }

/-- Concrete pre-existing child of c2Root. -/
def c2Child : Node :=
  { original_prompt := "p", answer := "c", parent := some 0, max_children := 2,
    exploration_weight := 1, children := [], visits := 1, value := 0,
    level := 1 }

/-- Concrete childless root used by the expansion witness. -/
def c2Single : Node :=
  { original_prompt := "p", answer := "r", parent := none, max_children := 2,
    exploration_weight := 1, children := [], visits := 1, value := 0,
    level := 0 }

theorem removeFirst_of_not_mem {c : Char} {l : List Char} (h : c ∉ l) :
    removeFirst c l = l := by
  induction l with
  | nil => rfl
  | cons x xs ih =>
    simp only [List.mem_cons, not_or] at h
    simp only [removeFirst, if_neg (fun hx : x = c => h.1 hx.symm), ih h.2]

theorem mem_of_mem_removeFirst {c x : Char} {l : List Char}
    (h : x ∈ removeFirst c l) : x ∈ l := by
  induction l with
  | nil => simp [removeFirst] at h
  | cons y ys ih =>
    by_cases hy : y = c
    · simp only [removeFirst, if_pos hy] at h
      exact List.mem_cons_of_mem y h
    · simp only [removeFirst, if_neg hy, List.mem_cons] at h
      rcases h with h | h
      · exact h ▸ List.mem_cons_self y ys
      · exact List.mem_cons_of_mem y (ih h)

theorem mem_removeFirst_of_ne {c x : Char} {l : List Char} (hx : x ≠ c)
    (h : x ∈ l) : x ∈ removeFirst c l := by
  induction l with
  | nil => simp at h
  | cons y ys ih =>
    by_cases hy : y = c
    · simp only [removeFirst, if_pos hy]
      rcases List.mem_cons.mp h with h | h
      · exact absurd (h.trans hy) hx
      · exact h
    · simp only [removeFirst, if_neg hy, List.mem_cons]
      rcases List.mem_cons.mp h with h | h
      · exact Or.inl h
      · exact Or.inr (ih h)

theorem count_removeFirst_ne {c d : Char} (hdc : d ≠ c) (l : List Char) :
    (removeFirst c l).count d = l.count d := by
  induction l with
  | nil => rfl
  | cons y ys ih =>
    by_cases hy : y = c
    · subst hy
      rw [List.count_cons_of_ne hdc]
      simp [removeFirst]
    · simp only [removeFirst, if_neg hy]
      by_cases hdy : d = y
      · subst hdy
        simp only [List.count_cons_self, ih]
      · simp only [List.count_cons_of_ne hdy, ih]

theorem forall_removeFirst_iff {P : Char → Prop} {c : Char} (hc : ¬ P c)
    (l : List Char) :
    (∀ x ∈ removeFirst c l, P x) ↔ l.count c ≤ 1 ∧ ∀ x ∈ l, P x ∨ x = c := by
  induction l with
  | nil => simp [removeFirst]
  | cons y ys ih =>
    by_cases hy : y = c
    · subst hy
      simp only [removeFirst, if_pos rfl, List.count_cons_self]
      constructor
      · intro hall
        have hnotin : y ∉ ys := fun hmem => hc (hall y hmem)
        refine ⟨?_, fun x hx => by
          rcases List.mem_cons.mp hx with h | h
          · exact Or.inr h
          · exact Or.inl (hall x h)⟩
        have : ys.count y = 0 := List.count_eq_zero.mpr hnotin
        omega
      · rintro ⟨hcount, hall⟩ x hx
        have hzero : ys.count y = 0 := by omega
        have hne : x ≠ y := fun hxy => (List.count_eq_zero.mp hzero) (hxy ▸ hx)
        rcases hall x (List.mem_cons_of_mem y hx) with h | h
        · exact h
        · exact absurd h hne
    · simp only [removeFirst, if_neg hy,
        List.count_cons_of_ne (fun h : c = y => hy h.symm)]
      constructor
      · intro hall
        obtain ⟨hcount, hrest⟩ := (ih).mp (fun x hx => hall x (List.mem_cons_of_mem y hx))
        refine ⟨by omega, fun x hx => ?_⟩
        rcases List.mem_cons.mp hx with h | h
        · exact Or.inl (h ▸ hall y (List.mem_cons_self y _))
        · exact hrest x h
      · rintro ⟨hcount, hall⟩ x hx
        rcases List.mem_cons.mp hx with h | h
        · subst h
          rcases hall x (List.mem_cons_self x _) with h | h
          · exact h
          · exact absurd h hy
        · exact ((ih).mpr ⟨by omega, fun z hz => hall z (List.mem_cons_of_mem y hz)⟩) x h

theorem isdigitStr_iff {l : List Char} :
    isdigitStr l = true ↔ l ≠ [] ∧ ∀ x ∈ l, x.isDigit = true := by
  simp [isdigitStr, List.isEmpty_iff]

theorem isdigitStr_removeFirst_iff {c : Char} (hc : ¬ c.isDigit = true)
    (l : List Char) :
    isdigitStr (removeFirst c l) = true ↔
      l.count c ≤ 1 ∧ (∀ x ∈ l, x.isDigit = true ∨ x = c) ∧
        ∃ x ∈ l, x.isDigit = true := by
  rw [isdigitStr_iff]
  constructor
  · rintro ⟨hne, hall⟩
    obtain ⟨hcount, hrest⟩ := (forall_removeFirst_iff hc l).mp hall
    obtain ⟨y, hy⟩ := List.exists_mem_of_ne_nil _ hne
    exact ⟨hcount, hrest, y, mem_of_mem_removeFirst hy, hall y hy⟩
  · rintro ⟨hcount, hall, y, hy, hyD⟩
    refine ⟨?_, (forall_removeFirst_iff hc l).mpr ⟨hcount, hall⟩⟩
    have hyne : y ≠ c := fun h => hc (h ▸ hyD)
    exact List.ne_nil_of_mem (mem_removeFirst_of_ne hyne hy)

/-- Position-independent characterization of the implemented numeric-string
check: the string must contain at least one digit, at most one minus sign,
at most one decimal point, and nothing else — the positions of the minus
sign and the decimal point are not constrained. -/
theorem is_numeric_score_char (s : String) :
    is_numeric_score s = true ↔
      s.data.count '-' ≤ 1 ∧ s.data.count '.' ≤ 1 ∧
        (∀ c ∈ s.data, c.isDigit = true ∨ c = '-' ∨ c = '.') ∧
        ∃ c ∈ s.data, c.isDigit = true := by
  unfold is_numeric_score
  rw [isdigitStr_removeFirst_iff (by decide)]
  rw [count_removeFirst_ne (by decide)]
  have hforall := forall_removeFirst_iff
    (P := fun x => x.isDigit = true ∨ x = '.') (c := '-') (by decide) s.data
  constructor
  · rintro ⟨hdot, hall, y, hy, hyD⟩
    obtain ⟨hdash, hall2⟩ := hforall.mp hall
    refine ⟨hdash, hdot, fun c hc => ?_, y, mem_of_mem_removeFirst hy, hyD⟩
    rcases hall2 c hc with h | h
    · rcases h with h | h
      · exact Or.inl h
      · exact Or.inr (Or.inr h)
    · exact Or.inr (Or.inl h)
  · rintro ⟨hdash, hdot, hall, y, hy, hyD⟩
    refine ⟨hdot, hforall.mpr ⟨hdash, fun c hc => ?_⟩, y,
      mem_removeFirst_of_ne (fun h => by simp [h] at hyD) hy, hyD⟩
    rcases hall c hc with h | h | h
    · exact Or.inl (Or.inl h)
    · exact Or.inr h
    · exact Or.inl (Or.inr h)


theorem count_dot_cons (c : Char) (rest : List Char) :
    (c :: rest).count '.' = rest.count '.' + (if c = '.' then 1 else 0) := by
  by_cases hc : c = '.'
  · subst hc
    simp [List.count_cons_self]
  · simp [List.count_cons_of_ne (show ('.' : Char) ≠ c from fun h => hc h.symm), hc]

theorem floatAux_isSome (l : List Char) : ∀ (sd sg : Bool) (acc scale : ℚ),
    (∀ c ∈ l, c.isDigit = true ∨ c = '.') →
    l.count '.' + (if sd then 1 else 0) ≤ 1 →
    (sg = true ∨ ∃ c ∈ l, c.isDigit = true) →
    (floatAux l sd sg acc scale).isSome = true := by
  induction l with
  | nil =>
    rintro sd sg acc scale - - (h | h)
    · simp [floatAux, h]
    · simp at h
  | cons c rest ih =>
    intro sd sg acc scale hall hcount hwit
    rw [count_dot_cons] at hcount
    have hall2 : ∀ x ∈ rest, x.isDigit = true ∨ x = '.' :=
      fun x hx => hall x (List.mem_cons_of_mem _ hx)
    by_cases hc : c = '.'
    · have hsd : sd = false := by
        cases sd
        · rfl
        · exfalso
          rw [if_pos hc] at hcount
          simp only [if_true] at hcount
          omega
      subst hsd
      subst hc
      simp only [floatAux, if_pos rfl, Bool.false_eq_true, if_false]
      refine ih true sg acc (1 / 10) hall2 ?_ ?_
      · rw [if_pos rfl] at hcount
        simpa using hcount
      · rcases hwit with h | ⟨x, hx, hxD⟩
        · exact Or.inl h
        · rcases List.mem_cons.mp hx with h | h
          · exact absurd (h ▸ hxD) (by decide)
          · exact Or.inr ⟨x, h, hxD⟩
    · have hd : c.isDigit = true := (hall c (List.mem_cons_self c rest)).resolve_right hc
      rw [if_neg hc] at hcount
      cases sd
      · simp only [floatAux, if_neg hc, hd, if_pos rfl, Bool.false_eq_true, if_false]
        refine ih false true (10 * acc + digitVal c) 1 hall2 ?_ (Or.inl rfl)
        simp only [if_neg (Bool.false_ne_true)]
        omega
      · simp only [floatAux, if_neg hc, hd, if_pos rfl, if_true]
        refine ih true true (acc + digitVal c * scale) (scale / 10) hall2 ?_ (Or.inl rfl)
        simpa using hcount

theorem floatAux_some_facts (l : List Char) : ∀ (sd sg : Bool) (acc scale : ℚ),
    (floatAux l sd sg acc scale).isSome = true →
    (∀ c ∈ l, c.isDigit = true ∨ c = '.') ∧
      l.count '.' + (if sd then 1 else 0) ≤ 1 ∧
      (sg = true ∨ ∃ c ∈ l, c.isDigit = true) := by
  induction l with
  | nil =>
    intro sd sg acc scale h
    cases sg
    · simp [floatAux] at h
    · refine ⟨by simp, ?_, Or.inl rfl⟩
      cases sd <;> simp
  | cons c rest ih =>
    intro sd sg acc scale h
    rw [count_dot_cons]
    by_cases hc : c = '.'
    · rw [floatAux, if_pos hc] at h
      cases sd
      · simp only [Bool.false_eq_true, if_false] at h
        obtain ⟨hall, hcount, hwit⟩ := ih true sg acc (1 / 10) h
        rw [if_pos rfl] at hcount
        refine ⟨fun x hx => ?_, ?_, ?_⟩
        · rcases List.mem_cons.mp hx with hx | hx
          · exact Or.inr (hx.trans hc)
          · exact hall x hx
        · rw [if_pos hc]
          simp only [Bool.false_eq_true, if_false]
          omega
        · rcases hwit with hw | ⟨x, hx, hxD⟩
          · exact Or.inl hw
          · exact Or.inr ⟨x, List.mem_cons_of_mem _ hx, hxD⟩
      · simp at h
    · rw [floatAux, if_neg hc] at h
      have hd : c.isDigit = true := by
        by_contra hnd
        rw [if_neg (fun hx : c.isDigit = true => hnd hx)] at h
        simp at h
      rw [if_pos hd] at h
      rw [if_neg hc]
      cases sd
      · simp only [Bool.false_eq_true, if_false] at h
        obtain ⟨hall, hcount, -⟩ := ih false true (10 * acc + digitVal c) 1 h
        refine ⟨fun x hx => ?_, ?_, Or.inr ⟨c, List.mem_cons_self c rest, hd⟩⟩
        · rcases List.mem_cons.mp hx with hx | hx
          · exact Or.inl (hx ▸ hd)
          · exact hall x hx
        · simp only [Bool.false_eq_true, if_false] at hcount ⊢
          omega
      · simp only [if_true] at h
        obtain ⟨hall, hcount, -⟩ := ih true true (acc + digitVal c * scale) (scale / 10) h
        refine ⟨fun x hx => ?_, ?_, Or.inr ⟨c, List.mem_cons_self c rest, hd⟩⟩
        · rcases List.mem_cons.mp hx with hx | hx
          · exact Or.inl (hx ▸ hd)
          · exact hall x hx
        · simp only [if_true] at hcount ⊢
          omega

theorem not_dash_mem_of_spec {l : List Char}
    (hall : ∀ c ∈ l, c.isDigit = true ∨ c = '.') : ('-' : Char) ∉ l := by
  intro hmem
  rcases hall _ hmem with h | h
  · exact absurd h (by decide)
  · exact absurd h (by decide)

/-- The set of strings the spec describes is contained in the set the
implemented check accepts. -/
theorem spec_imp_numeric {s : String} (h : specNumericStr s) :
    is_numeric_score s = true := by
  obtain ⟨hall, hdot, x, hx, hxD⟩ := h
  rw [is_numeric_score_char]
  cases hl : s.data with
  | nil =>
    rw [hl] at hx
    simp [specBody] at hx
  | cons c rest =>
    rw [hl] at hall hdot hx
    by_cases hc : c = '-'
    · simp only [specBody, if_pos hc] at hall hdot hx
      have hnd : ('-' : Char) ∉ rest := not_dash_mem_of_spec hall
      refine ⟨?_, ?_, ?_, x, List.mem_cons_of_mem _ hx, hxD⟩
      · subst hc
        rw [List.count_cons_self, List.count_eq_zero.mpr hnd]
      · rwa [List.count_cons_of_ne (show ('.' : Char) ≠ c from by rw [hc]; decide)]
      · intro y hy
        rcases List.mem_cons.mp hy with hy | hy
        · exact Or.inr (Or.inl (hy.trans hc))
        · rcases hall y hy with h | h
          · exact Or.inl h
          · exact Or.inr (Or.inr h)
    · simp only [specBody, if_neg hc] at hall hdot hx
      have hnd : ('-' : Char) ∉ c :: rest := not_dash_mem_of_spec hall
      refine ⟨by rw [List.count_eq_zero.mpr hnd]; omega, hdot, ?_, x, hx, hxD⟩
      intro y hy
      rcases hall y hy with h | h
      · exact Or.inl h
      · exact Or.inr (Or.inr h)

theorem pyFloatChars_cons (c : Char) (rest : List Char) :
    pyFloatChars (c :: rest) =
      if c = '-' then (floatAux rest false false 0 1).map Neg.neg
      else if c = '+' then floatAux rest false false 0 1
      else floatAux (c :: rest) false false 0 1 := rfl

/-- Every string the spec describes parses under the float model. -/
theorem spec_imp_float {s : String} (h : specNumericStr s) :
    ∃ q, pyFloat s = some q := by
  obtain ⟨hall, hdot, x, hx, hxD⟩ := h
  unfold pyFloat
  cases hl : s.data with
  | nil =>
    rw [hl] at hx
    simp [specBody] at hx
  | cons c rest =>
    rw [hl] at hall hdot hx
    rw [pyFloatChars_cons]
    by_cases hc : c = '-'
    · simp only [specBody, if_pos hc] at hall hdot hx
      rw [if_pos hc]
      have hsome := floatAux_isSome rest false false 0 1 hall
        (by simpa using hdot) (Or.inr ⟨x, hx, hxD⟩)
      obtain ⟨q, hq⟩ := Option.isSome_iff_exists.mp hsome
      exact ⟨-q, by rw [hq]; rfl⟩
    · simp only [specBody, if_neg hc] at hall hdot hx
      have hplus : c ≠ '+' := by
        rcases hall c (List.mem_cons_self c rest) with h | h
        · intro hcp
          rw [hcp] at h
          exact absurd h (by decide)
        · intro hcp
          rw [hcp] at h
          exact absurd h (by decide)
      rw [if_neg hc, if_neg hplus]
      have hsome := floatAux_isSome (c :: rest) false false 0 1 hall
        (by simpa using hdot) (Or.inr ⟨x, hx, hxD⟩)
      exact Option.isSome_iff_exists.mp hsome

/-- A string is in the spec-described set as soon as the implemented check
accepts it and the float conversion succeeds: these are exactly the inputs
on which `normalize_rating_score` returns normally. -/
theorem numeric_and_float_imp_spec {s : String} (hn : is_numeric_score s = true)
    (hf : (pyFloat s).isSome = true) : specNumericStr s := by
  unfold pyFloat at hf
  unfold specNumericStr
  cases hl : s.data with
  | nil =>
    rw [hl] at hf
    simp [pyFloatChars] at hf
  | cons c rest =>
    rw [hl, pyFloatChars_cons] at hf
    by_cases hc : c = '-'
    · rw [if_pos hc] at hf
      have hf2 : (floatAux rest false false 0 1).isSome = true := by
        cases hres : floatAux rest false false 0 1 <;> rw [hres] at hf
        · simp at hf
        · rfl
      obtain ⟨hall, hdot, hwit⟩ := floatAux_some_facts rest false false 0 1 hf2
      simp only [specBody, if_pos hc]
      refine ⟨hall, by simpa using hdot, ?_⟩
      rcases hwit with hw | hw
      · exact absurd hw (by decide)
      · exact hw
    · have hplus : c ≠ '+' := by
        intro hcp
        have := (is_numeric_score_char s).mp hn
        rw [hl] at this
        rcases this.2.2.1 c (List.mem_cons_self c rest) with h | h | h
        · rw [hcp] at h
          exact absurd h (by decide)
        · exact hc h
        · rw [hcp] at h
          exact absurd h (by decide)
      rw [if_neg hc, if_neg hplus] at hf
      obtain ⟨hall, hdot, hwit⟩ := floatAux_some_facts (c :: rest) false false 0 1 hf
      simp only [specBody, if_neg hc]
      refine ⟨hall, by simpa using hdot, ?_⟩
      rcases hwit with hw | hw
      · exact absurd hw (by decide)
      · exact hw

/-- Bounds of the clamp-and-divide normalization. -/
theorem clampDiv_bounds (q : ℚ) :
    0 ≤ max 0 (min 95 q) / 100 ∧ max 0 (min 95 q) / 100 ≤ 95 / 100 := by
  constructor
  · exact div_nonneg (le_max_left 0 _) (by norm_num)
  · have h : max 0 (min 95 q) ≤ 95 := max_le (by norm_num) (min_le_left _ _)
    have h100 : (0 : ℚ) < 100 := by norm_num
    exact (div_le_div_iff_of_pos_right h100).mpr h

theorem normalize_pystr_spec {s : String} (h : specNumericStr s) :
    ∃ q, pyFloat s = some q ∧
      normalize_rating_score (.pystr s) = .ok (max 0 (min 95 q) / 100) := by
  obtain ⟨q, hq⟩ := spec_imp_float h
  exact ⟨q, hq, by simp [normalize_rating_score, spec_imp_numeric h, hq]⟩

theorem normalize_pystr_not_spec {s : String} (h : ¬ specNumericStr s) :
    normalize_rating_score (.pystr s) = .error .valueError := by
  by_cases hn : is_numeric_score s
  · have hf : pyFloat s = none := by
      cases hfo : pyFloat s with
      | none => rfl
      | some q => exact absurd (numeric_and_float_imp_spec hn (by simp [hfo])) h
    simp [normalize_rating_score, hn, hf]
  · simp [normalize_rating_score, hn]

/-- C9 counterexample: the implemented numeric-string check accepts "5-3"
although its minus sign is not in leading position, so the claimed rule
(minus sign only as a single leading character) does not hold of the code. -/
theorem c9_counterexample :
    is_numeric_score "5-3" = true ∧ ¬ specNumericStr "5-3" :=
  ⟨by decide, by decide⟩

/-- C9 (amended): for every string s, the numeric-string check accepts s iff
s contains at least one digit, at most one minus sign, at most one decimal
point, and no other characters — the minus sign and the decimal point may
occur at any position, not only a leading one. -/
theorem c9_is_numeric_characterization (s : String) :
    is_numeric_score s = true ↔
      s.data.count '-' ≤ 1 ∧ s.data.count '.' ≤ 1 ∧
        (∀ c ∈ s.data, c.isDigit = true ∨ c = '-' ∨ c = '.') ∧
        ∃ c ∈ s.data, c.isDigit = true :=
  is_numeric_score_char s

/-- C7: for every integer input, and for every numeric-string input in the
sense of the spec, the normalizer returns exactly the value clamped to
[0, 95] and divided by 100, and the result lies in [0, 0.95]. -/
theorem c7_normalize_clamp :
    (∀ n : ℤ, normalize_rating_score (.pyint n) = .ok (max 0 (min 95 (n : ℚ)) / 100) ∧
      0 ≤ max 0 (min 95 (n : ℚ)) / 100 ∧ max 0 (min 95 (n : ℚ)) / 100 ≤ 95 / 100) ∧
    (∀ s : String, specNumericStr s → ∃ q, pyFloat s = some q ∧
      normalize_rating_score (.pystr s) = .ok (max 0 (min 95 q) / 100) ∧
      0 ≤ max 0 (min 95 q) / 100 ∧ max 0 (min 95 q) / 100 ≤ 95 / 100) := by
  constructor
  · intro n
    exact ⟨rfl, clampDiv_bounds _⟩
  · intro s hs
    obtain ⟨q, hq, hok⟩ := normalize_pystr_spec hs
    exact ⟨q, hq, hok, clampDiv_bounds q⟩

/-- C8 counterexample: 72.5 is a numeric value, yet the normalizer raises
ValueError on it (the isinstance check admits only int and str); so the
normalizer does not accept every numeric value, and ValueError is not
raised only for non-numeric strings. -/
theorem c8_counterexample :
    normalize_rating_score (.pyfloat (145 / 2)) = .error .valueError := rfl

/-- C8 (amended): the normalizer fails with TypeError exactly on None; every
integer and every numeric string (spec sense) is accepted; every other
string fails with ValueError; and every input that is neither int nor str,
floats included, also fails with ValueError; in particular "abc", "",
"1.2.3" and "1e5" all fail with ValueError. -/
theorem c8_error_contract :
    (∀ v : PyValue, normalize_rating_score v = .error .typeError ↔ v = .pynone) ∧
    (∀ n : ℤ, ∃ q, normalize_rating_score (.pyint n) = .ok q) ∧
    (∀ s : String, specNumericStr s → ∃ q, normalize_rating_score (.pystr s) = .ok q) ∧
    (∀ s : String, ¬ specNumericStr s →
      normalize_rating_score (.pystr s) = .error .valueError) ∧
    (∀ q : ℚ, normalize_rating_score (.pyfloat q) = .error .valueError) ∧
    normalize_rating_score (.pystr "abc") = .error .valueError ∧
    normalize_rating_score (.pystr "") = .error .valueError ∧
    normalize_rating_score (.pystr "1.2.3") = .error .valueError ∧
    normalize_rating_score (.pystr "1e5") = .error .valueError := by
  refine ⟨?_, ?_, ?_, ?_, ?_, ?_, ?_, ?_, ?_⟩
  · intro v
    cases v with
    | pynone => simp [normalize_rating_score]
    | pyint n => simp [normalize_rating_score]
    | pyfloat q => simp [normalize_rating_score]
    | pyother => simp [normalize_rating_score]
    | pystr s =>
      by_cases hs : specNumericStr s
      · obtain ⟨q, hq, hok⟩ := normalize_pystr_spec hs
        rw [hok]
        simp
      · rw [normalize_pystr_not_spec hs]
        simp
  · intro n
    exact ⟨_, rfl⟩
  · intro s hs
    obtain ⟨q, hq, hok⟩ := normalize_pystr_spec hs
    exact ⟨_, hok⟩
  · intro s hs
    exact normalize_pystr_not_spec hs
  · intro q
    rfl
  · exact normalize_pystr_not_spec (by decide)
  · exact normalize_pystr_not_spec (by decide)
  · exact normalize_pystr_not_spec (by decide)
  · exact normalize_pystr_not_spec (by decide)

theorem pickMaxVisits_mem (l : List Node) : ∀ best : Node,
    pickMaxVisits best l ∈ best :: l := by
  induction l with
  | nil =>
    intro best
    simp [pickMaxVisits]
  | cons c cs ih =>
    intro best
    by_cases h : best.visits < c.visits
    · simp only [pickMaxVisits, if_pos h]
      exact List.mem_cons_of_mem best (ih c)
    · simp only [pickMaxVisits, if_neg h]
      rcases List.mem_cons.mp (ih best) with hm | hm
      · rw [hm]
        exact List.mem_cons_self _ _
      · exact List.mem_cons_of_mem _ (List.mem_cons_of_mem _ hm)

theorem pickMaxVisits_le (l : List Node) : ∀ best : Node,
    best.visits ≤ (pickMaxVisits best l).visits ∧
      ∀ d ∈ l, d.visits ≤ (pickMaxVisits best l).visits := by
  induction l with
  | nil =>
    intro best
    exact ⟨le_refl _, by simp⟩
  | cons c cs ih =>
    intro best
    by_cases h : best.visits < c.visits
    · simp only [pickMaxVisits, if_pos h]
      obtain ⟨h1, h2⟩ := ih c
      refine ⟨le_trans (le_of_lt h) h1, fun d hd => ?_⟩
      rcases List.mem_cons.mp hd with hm | hm
      · rw [hm]
        exact h1
      · exact h2 d hm
    · simp only [pickMaxVisits, if_neg h]
      obtain ⟨h1, h2⟩ := ih best
      refine ⟨h1, fun d hd => ?_⟩
      rcases List.mem_cons.mp hd with hm | hm
      · rw [hm]
        exact le_trans (Nat.le_of_not_lt h) h1
      · exact h2 d hm

theorem pickMaxVisits_first (l : List Node) : ∀ best : Node,
    ∃ k, (best :: l).get? k = some (pickMaxVisits best l) ∧
      ∀ j y, j < k → (best :: l).get? j = some y →
        y.visits < (pickMaxVisits best l).visits := by
  induction l with
  | nil =>
    intro best
    exact ⟨0, rfl, fun j y hj _ => absurd hj (Nat.not_lt_zero j)⟩
  | cons c cs ih =>
    intro best
    by_cases h : best.visits < c.visits
    · simp only [pickMaxVisits, if_pos h]
      obtain ⟨k, hk, hearlier⟩ := ih c
      refine ⟨k + 1, hk, fun j y hj hy => ?_⟩
      cases j with
      | zero =>
        have hy0 : y = best := by
          simpa using hy.symm
        subst hy0
        exact lt_of_lt_of_le h (pickMaxVisits_le cs c).1
      | succ j' => exact hearlier j' y (Nat.lt_of_succ_lt_succ hj) hy
    · simp only [pickMaxVisits, if_neg h]
      obtain ⟨k, hk, hearlier⟩ := ih best
      cases k with
      | zero =>
        have hres : best = pickMaxVisits best cs := by
          simpa using hk
        exact ⟨0, by simpa using congrArg some hres,
          fun j y hj _ => absurd hj (Nat.not_lt_zero j)⟩
      | succ k' =>
        simp only [List.get?_cons_succ] at hk
        refine ⟨k' + 2, by simpa using hk, fun j y hj hy => ?_⟩
        have hbest : best.visits < (pickMaxVisits best cs).visits :=
          hearlier 0 best (Nat.succ_pos k') rfl
        match j, hy with
        | 0, hy =>
          have hy0 : y = best := by simpa using hy.symm
          rw [hy0]
          exact hbest
        | 1, hy =>
          have hy1 : y = c := by simpa using hy.symm
          rw [hy1]
          exact lt_of_le_of_lt (Nat.le_of_not_lt h) hbest
        | (j'' + 2), hy =>
          refine hearlier (j'' + 1) y (by omega) ?_
          simpa using hy

theorem le_listMax {l : List EReal} {x : EReal} (hx : x ∈ l) : x ≤ listMax l := by
  induction l with
  | nil => simp at hx
  | cons y ys ih =>
    simp only [listMax]
    rcases List.mem_cons.mp hx with h | h
    · rw [h]
      exact le_max_left _ _
    · exact le_trans (ih h) (le_max_right _ _)

theorem argmaxIdx_lt_length {l : List EReal} (h : l ≠ []) :
    argmaxIdx l < l.length := by
  induction l with
  | nil => exact absurd rfl h
  | cons x xs ih =>
    simp only [argmaxIdx]
    by_cases hle : listMax xs ≤ x
    · rw [if_pos hle]
      simp
    · rw [if_neg hle]
      have hxs : xs ≠ [] := by
        rintro rfl
        exact hle (by simp [listMax])
      simpa using Nat.succ_lt_succ (ih hxs)

theorem get_argmaxIdx {l : List EReal} (h : l ≠ []) :
    l.get? (argmaxIdx l) = some (listMax l) := by
  induction l with
  | nil => exact absurd rfl h
  | cons x xs ih =>
    simp only [argmaxIdx, listMax]
    by_cases hle : listMax xs ≤ x
    · rw [if_pos hle]
      simp [max_eq_left hle]
    · rw [if_neg hle]
      have hlt := lt_of_not_le hle
      have hxs : xs ≠ [] := by
        rintro rfl
        exact hle (by simp [listMax])
      simp only [List.get?_cons_succ]
      rw [ih hxs, max_eq_right (le_of_lt hlt)]

theorem earlier_lt_listMax {l : List EReal} : ∀ j y, j < argmaxIdx l →
    l.get? j = some y → y < listMax l := by
  induction l with
  | nil =>
    intro j y hj
    simp [argmaxIdx] at hj
  | cons x xs ih =>
    intro j y hj hy
    simp only [argmaxIdx] at hj
    by_cases hle : listMax xs ≤ x
    · rw [if_pos hle] at hj
      exact absurd hj (Nat.not_lt_zero j)
    · rw [if_neg hle] at hj
      have hlt := lt_of_not_le hle
      simp only [listMax]
      rw [max_eq_right (le_of_lt hlt)]
      cases j with
      | zero =>
        have hy0 : y = x := by simpa using hy.symm
        rw [hy0]
        exact hlt
      | succ j' => exact ih j' y (Nat.lt_of_succ_lt_succ hj) (by simpa using hy)

theorem bumpN_zero (r : ℚ) (nd : Node) : bumpN r 0 nd = nd := by
  simp [bumpN]

theorem bump_bumpN (r : ℚ) (k : ℕ) (nd : Node) :
    bumpN r k (bumpNode r nd) = bumpN r (k + 1) nd := by
  simp only [bumpN, bumpNode, Node.mk.injEq, true_and, and_true]
  exact ⟨by omega, by push_cast; ring⟩

theorem map_bumpN_zero (r : ℚ) (o : Option Node) : o.map (bumpN r 0) = o := by
  cases o with
  | none => rfl
  | some nd => simp [bumpN_zero]

theorem bumpN_parent (r : ℚ) (k : ℕ) (nd : Node) :
    (bumpN r k nd).parent = nd.parent := rfl

theorem bpAux_length (r : ℚ) : ∀ (fuel : ℕ) (st : List Node) (oi : Option ℕ),
    (bpAux r fuel st oi).length = st.length := by
  intro fuel
  induction fuel with
  | zero =>
    intro st oi
    cases oi <;> rfl
  | succ f ih =>
    intro st oi
    cases oi with
    | none => rfl
    | some i =>
      simp only [bpAux]
      cases hnd : st.get? i with
      | none => rfl
      | some nd => rw [ih, List.length_set]

theorem chainAux_congr : ∀ (fuel : ℕ) (st st2 : List Node) (oi : Option ℕ),
    (∀ j, (st2.get? j).map Node.parent = (st.get? j).map Node.parent) →
    chainAux fuel st2 oi = chainAux fuel st oi := by
  intro fuel
  induction fuel with
  | zero =>
    intro st st2 oi _
    cases oi <;> rfl
  | succ f ih =>
    intro st st2 oi hshape
    cases oi with
    | none => rfl
    | some i =>
      simp only [chainAux]
      have h := hshape i
      cases h2 : st2.get? i with
      | none =>
        cases h1 : st.get? i with
        | none => rfl
        | some nd1 =>
          rw [h2, h1] at h
          simp at h
      | some nd2 =>
        cases h1 : st.get? i with
        | none =>
          rw [h2, h1] at h
          simp at h
        | some nd1 =>
          rw [h2, h1] at h
          simp only [Option.map_some'] at h
          show i :: chainAux f st2 nd2.parent = i :: chainAux f st nd1.parent
          rw [Option.some.inj h]
          exact congrArg (i :: ·) (ih st st2 nd1.parent hshape)

theorem shape_set_bump (r : ℚ) (st : List Node) (k : ℕ) (nd0 : Node)
    (hk : st.get? k = some nd0) (j : ℕ) :
    ((st.set k (bumpNode r nd0)).get? j).map Node.parent =
      (st.get? j).map Node.parent := by
  by_cases hjk : j = k
  · subst hjk
    have hlen : j < st.length := (List.get?_eq_some.mp hk).1
    rw [List.get?_set_eq_of_lt _ hlen, hk]
    rfl
  · rw [List.get?_set_ne _ _ (fun h => hjk h.symm)]

theorem bpAux_get (r : ℚ) : ∀ (fuel : ℕ) (st : List Node) (oi : Option ℕ) (j : ℕ),
    (bpAux r fuel st oi).get? j =
      (st.get? j).map (bumpN r ((chainAux fuel st oi).count j)) := by
  intro fuel
  induction fuel with
  | zero =>
    intro st oi j
    cases oi with
    | none =>
      simp only [bpAux, chainAux, List.count_nil]
      rw [map_bumpN_zero]
    | some i =>
      simp only [bpAux, chainAux, List.count_nil]
      rw [map_bumpN_zero]
  | succ f ih =>
    intro st oi j
    cases oi with
    | none =>
      simp only [bpAux, chainAux, List.count_nil]
      rw [map_bumpN_zero]
    | some i =>
      simp only [bpAux, chainAux]
      cases hnd : st.get? i with
      | none =>
        simp only [List.count_nil]
        rw [map_bumpN_zero]
      | some nd =>
        rw [ih]
        rw [chainAux_congr f st (st.set i (bumpNode r nd)) nd.parent
          (shape_set_bump r st i nd hnd)]
        have hlen : i < st.length := (List.get?_eq_some.mp hnd).1
        by_cases hij : j = i
        · subst hij
          rw [List.get?_set_eq_of_lt _ hlen, hnd, List.count_cons_self]
          simp only [Option.map_some']
          rw [bump_bumpN]
        · rw [List.get?_set_ne _ _ (fun h => hij h.symm),
            List.count_cons_of_ne hij]

theorem chainAux_none_fuel (fuel : ℕ) (st : List Node) :
    chainAux fuel st none = [] := by
  cases fuel <;> rfl

theorem chainAux_invalid {st : List Node} {i : ℕ} (h : st.get? i = none)
    (fuel : ℕ) : chainAux fuel st (some i) = [] := by
  cases fuel with
  | zero => rfl
  | succ f =>
    show (match st.get? i with
      | none => []
      | some nd => i :: chainAux f st nd.parent) = []
    rw [h]

theorem chainAux_cons {st : List Node} {i : ℕ} {nd : Node}
    (h : st.get? i = some nd) (fuel : ℕ) :
    chainAux (fuel + 1) st (some i) = i :: chainAux fuel st nd.parent := by
  show (match st.get? i with
    | none => []
    | some nd => i :: chainAux fuel st nd.parent) = i :: chainAux fuel st nd.parent
  rw [h]

theorem get_of_lt_length {st : List Node} {i : ℕ} (hi : i < st.length) :
    ∃ nd, st.get? i = some nd := by
  cases h : st.get? i with
  | none =>
    rw [List.get?_eq_none] at h
    omega
  | some nd => exact ⟨nd, rfl⟩

theorem parentDec_spec {st : List Node} (h : ParentDec st) {i p : ℕ} {nd : Node}
    (hi : st.get? i = some nd) (hp : nd.parent = some p) : p < i := by
  have hlen : i < st.length := (List.get?_eq_some.mp hi).1
  have hok := h i hlen
  unfold parentOkB at hok
  rw [hi] at hok
  simp only [Option.map_some'] at hok
  rw [hp] at hok
  simpa using hok

theorem chainAux_le {st : List Node} (hpd : ParentDec st) :
    ∀ (fuel i j : ℕ), j ∈ chainAux fuel st (some i) → j ≤ i := by
  intro fuel
  induction fuel with
  | zero =>
    intro i j hj
    simp [chainAux] at hj
  | succ f ih =>
    intro i j hj
    cases hnd : st.get? i with
    | none =>
      rw [chainAux_invalid hnd] at hj
      simp at hj
    | some nd =>
      rw [chainAux_cons hnd] at hj
      rcases List.mem_cons.mp hj with hj | hj
      · exact le_of_eq hj
      · cases hp : nd.parent with
        | none =>
          rw [hp, chainAux_none_fuel] at hj
          simp at hj
        | some p =>
          rw [hp] at hj
          exact le_trans (ih p j hj) (le_of_lt (parentDec_spec hpd hnd hp))

theorem chainAux_count_le_one {st : List Node} (hpd : ParentDec st) :
    ∀ (fuel : ℕ) (oi : Option ℕ) (j : ℕ), (chainAux fuel st oi).count j ≤ 1 := by
  intro fuel
  induction fuel with
  | zero =>
    intro oi j
    cases oi with
    | none => simp [chainAux_none_fuel]
    | some i => simp [chainAux]
  | succ f ih =>
    intro oi j
    cases oi with
    | none => simp [chainAux_none_fuel]
    | some i =>
      cases hnd : st.get? i with
      | none => simp [chainAux_invalid hnd]
      | some nd =>
        rw [chainAux_cons hnd]
        by_cases hji : j = i
        · subst hji
          rw [List.count_cons_self]
          have hnotin : j ∉ chainAux f st nd.parent := by
            intro hmem
            cases hp : nd.parent with
            | none =>
              rw [hp, chainAux_none_fuel] at hmem
              simp at hmem
            | some p =>
              rw [hp] at hmem
              have h1 : j ≤ p := chainAux_le hpd f p j hmem
              have h2 : p < j := parentDec_spec hpd hnd hp
              omega
          rw [List.count_eq_zero.mpr hnotin]
        · rw [List.count_cons_of_ne hji]
          exact ih nd.parent j

theorem chainAux_fuel {st : List Node} (hpd : ParentDec st) :
    ∀ (i f1 f2 : ℕ), i < f1 → i < f2 →
      chainAux f1 st (some i) = chainAux f2 st (some i) := by
  intro i
  induction i using Nat.strong_induction_on with
  | _ i ih =>
    intro f1 f2 h1 h2
    obtain ⟨f1x, rfl⟩ : ∃ k, f1 = k + 1 := ⟨f1 - 1, by omega⟩
    obtain ⟨f2x, rfl⟩ : ∃ k, f2 = k + 1 := ⟨f2 - 1, by omega⟩
    cases hnd : st.get? i with
    | none => rw [chainAux_invalid hnd, chainAux_invalid hnd]
    | some nd =>
      rw [chainAux_cons hnd, chainAux_cons hnd]
      cases hp : nd.parent with
      | none => rw [chainAux_none_fuel, chainAux_none_fuel]
      | some p =>
        have hpi : p < i := parentDec_spec hpd hnd hp
        rw [ih p hpi f1x f2x (by omega) (by omega)]

theorem backpropagate_get (st : List Node) (oi : Option ℕ) (r : ℚ) (j : ℕ) :
    (backpropagate st oi r).get? j =
      (st.get? j).map (bumpN r ((parentChain st oi).count j)) :=
  bpAux_get r st.length st oi j

theorem backpropagate_length (st : List Node) (oi : Option ℕ) (r : ℚ) :
    (backpropagate st oi r).length = st.length :=
  bpAux_length r st.length st oi

theorem backpropagate_shape (st : List Node) (oi : Option ℕ) (r : ℚ) (j : ℕ) :
    ((backpropagate st oi r).get? j).map Node.parent =
      (st.get? j).map Node.parent := by
  rw [backpropagate_get]
  cases st.get? j <;> rfl

theorem parentChain_backpropagate (st : List Node) (oi oi2 : Option ℕ) (r : ℚ) :
    parentChain (backpropagate st oi r) oi2 = parentChain st oi2 := by
  unfold parentChain
  rw [backpropagate_length]
  exact chainAux_congr st.length st (backpropagate st oi r) oi2
    (backpropagate_shape st oi r)

theorem parentDec_backpropagate {st : List Node} (hpd : ParentDec st)
    (oi : Option ℕ) (r : ℚ) : ParentDec (backpropagate st oi r) := by
  intro i hi
  rw [backpropagate_length] at hi
  have hok := hpd i hi
  unfold parentOkB at hok ⊢
  rw [backpropagate_shape]
  exact hok

theorem parentChain_count_eq_one {st : List Node} (hpd : ParentDec st)
    {oi : Option ℕ} {j : ℕ} (hj : j ∈ parentChain st oi) :
    (parentChain st oi).count j = 1 := by
  have h1 : 0 < (parentChain st oi).count j := List.count_pos_iff.mpr hj
  have h2 := chainAux_count_le_one hpd st.length oi j
  unfold parentChain at h1 ⊢
  omega

theorem parentChain_head {st : List Node} {i : ℕ} {nd : Node}
    (hi : st.get? i = some nd) :
    parentChain st (some i) = i :: chainAux (st.length - 1) st nd.parent := by
  have hlen : i < st.length := (List.get?_eq_some.mp hi).1
  obtain ⟨f, hf⟩ : ∃ k, st.length = k + 1 := ⟨st.length - 1, by omega⟩
  rw [parentChain, hf, chainAux_cons hi]
  simp [hf]

theorem parentChain_root_closure {st : List Node} (hpd : ParentDec st) :
    ∀ i : ℕ, i < st.length →
      ((∀ j ∈ parentChain st (some i), ∀ jd, st.get? j = some jd →
          ∀ p, jd.parent = some p → p ∈ parentChain st (some i)) ∧
        (∃ j ∈ parentChain st (some i), ∃ jd, st.get? j = some jd ∧
          jd.parent = none)) := by
  intro i
  induction i using Nat.strong_induction_on with
  | _ i ih =>
    intro hi
    obtain ⟨nd, hnd⟩ := get_of_lt_length hi
    have hchain := parentChain_head hnd
    cases hp : nd.parent with
    | none =>
      rw [hp, chainAux_none_fuel] at hchain
      constructor
      · intro j hj jd hjd p hpj
        rw [hchain] at hj
        simp only [List.mem_cons, List.not_mem_nil, or_false] at hj
        subst hj
        have hjn : jd = nd := Option.some.inj (hjd.symm.trans hnd)
        rw [hjn, hp] at hpj
        cases hpj
      · refine ⟨i, ?_, nd, hnd, hp⟩
        rw [hchain]
        exact List.mem_cons_self _ _
    | some p =>
      have hpi : p < i := parentDec_spec hpd hnd hp
      have hpl : p < st.length := lt_trans hpi hi
      have htail : chainAux (st.length - 1) st nd.parent = parentChain st (some p) := by
        rw [hp, parentChain]
        exact chainAux_fuel hpd p (st.length - 1) st.length (by omega) (by omega)
      rw [htail] at hchain
      obtain ⟨ihcl, ihroot⟩ := ih p hpi hpl
      obtain ⟨pd, hpdget⟩ := get_of_lt_length hpl
      have hpmem : p ∈ parentChain st (some p) := by
        rw [parentChain_head hpdget]
        exact List.mem_cons_self _ _
      constructor
      · intro j hj jd hjd p2 hp2
        rw [hchain] at hj ⊢
        rcases List.mem_cons.mp hj with hj | hj
        · subst hj
          have hjn : jd = nd := Option.some.inj (hjd.symm.trans hnd)
          have hp2e : p2 = p := by
            rw [hjn, hp] at hp2
            exact (Option.some.inj hp2).symm
          subst hp2e
          exact List.mem_cons_of_mem _ hpmem
        · exact List.mem_cons_of_mem _ (ihcl j hj jd hjd p2 hp2)
      · obtain ⟨j, hj, jd, hjd, hroot⟩ := ihroot
        refine ⟨j, ?_, jd, hjd, hroot⟩
        rw [hchain]
        exact List.mem_cons_of_mem _ hj

theorem bumpList_nil (nd : Node) : bumpList [] nd = nd := by
  simp [bumpList]

theorem bumpList_cons (q : ℚ) (rest : List ℚ) (nd : Node) :
    bumpList rest (bumpN q 1 nd) = bumpList (q :: rest) nd := by
  simp only [bumpList, bumpN, List.sum_cons, List.length_cons, Node.mk.injEq,
    true_and, and_true]
  exact ⟨by omega, by push_cast; ring⟩

theorem bumpN_one (r : ℚ) (nd : Node) : bumpN r 1 nd = bumpNode r nd := by
  have h := bump_bumpN r 0 nd
  rw [bumpN_zero] at h
  exact h.symm

theorem backpropagate_foldl (i : ℕ) (rs : List ℚ) :
    ∀ (st : List Node), ParentDec st → ∀ j ∈ parentChain st (some i),
      (rs.foldl (fun s q => backpropagate s (some i) q) st).get? j =
        (st.get? j).map (bumpList rs) := by
  induction rs with
  | nil =>
    intro st _ j _
    simp only [List.foldl_nil]
    cases st.get? j with
    | none => rfl
    | some nd => simp [bumpList_nil]
  | cons q rest ih =>
    intro st hpd j hj
    simp only [List.foldl_cons]
    rw [ih (backpropagate st (some i) q) (parentDec_backpropagate hpd _ _) j
      (by rw [parentChain_backpropagate]; exact hj)]
    rw [backpropagate_get, parentChain_count_eq_one hpd hj]
    cases st.get? j with
    | none => rfl
    | some nd =>
      simp only [Option.map_some']
      rw [bumpList_cons]

/-- C6: backpropagation from a node with reward r walks the parent chain
from that node up to and including the root, adding exactly one visit and
exactly r of value at every node on the chain, and changes no other node;
iterating n backpropagations along the same chain adds n visits and the sum
of the n rewards, so a chain of freshly constructed nodes (visits 1, value
0) ends with visits 1 + n and value equal to that sum. -/
theorem c6_backpropagate_updates (st : List Node) (i : ℕ) (r : ℚ) (rs : List ℚ)
    (hpd : ParentDec st) (hi : i < st.length) :
    (∃ rest, parentChain st (some i) = i :: rest) ∧
    (∀ j ∈ parentChain st (some i), ∀ jd, st.get? j = some jd →
      (backpropagate st (some i) r).get? j = some (bumpNode r jd)) ∧
    (∀ j, j ∉ parentChain st (some i) →
      (backpropagate st (some i) r).get? j = st.get? j) ∧
    (backpropagate st (some i) r).length = st.length ∧
    (∀ j ∈ parentChain st (some i), ∀ jd, st.get? j = some jd →
      ∀ p, jd.parent = some p → p ∈ parentChain st (some i)) ∧
    (∃ j ∈ parentChain st (some i), ∃ jd, st.get? j = some jd ∧
      jd.parent = none) ∧
    (∀ j ∈ parentChain st (some i), ∀ jd, st.get? j = some jd →
      (rs.foldl (fun s q => backpropagate s (some i) q) st).get? j =
        some (bumpList rs jd)) ∧
    (∀ j ∈ parentChain st (some i), ∀ jd, st.get? j = some jd →
      jd.visits = 1 → jd.value = 0 →
      ∃ jd2, (rs.foldl (fun s q => backpropagate s (some i) q) st).get? j =
        some jd2 ∧ jd2.visits = 1 + rs.length ∧ jd2.value = rs.sum) := by
  obtain ⟨nd, hnd⟩ := get_of_lt_length hi
  obtain ⟨hclosure, hroot⟩ := parentChain_root_closure hpd i hi
  refine ⟨⟨_, parentChain_head hnd⟩, ?_, ?_, backpropagate_length st (some i) r,
    hclosure, hroot, ?_, ?_⟩
  · intro j hj jd hjd
    rw [backpropagate_get, parentChain_count_eq_one hpd hj, hjd]
    simp only [Option.map_some']
    rw [bumpN_one]
  · intro j hj
    rw [backpropagate_get]
    have hzero : (parentChain st (some i)).count j = 0 :=
      List.count_eq_zero.mpr hj
    rw [hzero, map_bumpN_zero]
  · intro j hj jd hjd
    rw [backpropagate_foldl i rs st hpd j hj, hjd]
    rfl
  · intro j hj jd hjd h1 h0
    refine ⟨bumpList rs jd, ?_, ?_, ?_⟩
    · rw [backpropagate_foldl i rs st hpd j hj, hjd]
      rfl
    · simp [bumpList, h1]
    · simp [bumpList, h0]

/-- Concrete two-node tree used by the backpropagation witness: the root. -/
def c6Root : Node :=
  { original_prompt := "p", answer := "a", parent := none, max_children := 2,
    exploration_weight := 1, children := [1], visits := 1, value := 0,
    level := 0 }

/-- Concrete two-node tree used by the backpropagation witness: the child. -/
def c6Child : Node :=
  { original_prompt := "p", answer := "b", parent := some 0, max_children := 2,
    exploration_weight := 1, children := [], visits := 1, value := 0,
    level := 1 }

/-- Witness: backpropagating reward one half from the child of a concrete
two-node tree updates the child to two visits and value one half, and
preserves the arena size. -/
theorem c6_witness :
    (backpropagate [c6Root, c6Child] (some 1) (1 / 2)).get? 1 =
      some (bumpNode (1 / 2) c6Child) ∧
    (backpropagate [c6Root, c6Child] (some 1) (1 / 2)).get? 0 =
      some (bumpNode (1 / 2) c6Root) ∧
    (backpropagate [c6Root, c6Child] (some 1) (1 / 2)).length = 2 := by
  have h := c6_backpropagate_updates [c6Root, c6Child] 1 (1 / 2) []
    (by decide) (by decide)
  exact ⟨h.2.1 1 (by decide) c6Child rfl, h.2.1 0 (by decide) c6Root rfl,
    h.2.2.2.1⟩

/-- C5: for every node with nonempty resolved children and at least one
visit, best_child scores an unvisited child as positive infinity, scores a
visited child as value/visits plus explorationWeight times
sqrt(ln(parent visits)/child visits), returns a child of maximal score with
lowest-index tie-breaking, and consequently an unvisited child is always
selected over any visited child regardless of the visited child's value. -/
theorem c5_best_child (st : List Node) (nd : Node)
    (hne : nd.children.filterMap (fun i => st.get? i) ≠ [])
    (hv : 1 ≤ nd.visits) :
    (∀ d : Node, d.visits = 0 →
      uctWeight nd.visits nd.exploration_weight d = ⊤) ∧
    (∀ d : Node, d.visits ≠ 0 →
      uctWeight nd.visits nd.exploration_weight d =
        ((((d.value / (d.visits : ℚ)) : ℚ) : ℝ) +
          ((nd.exploration_weight : ℚ) : ℝ) *
            Real.sqrt (Real.log (nd.visits : ℝ) / (d.visits : ℝ)) : ℝ)) ∧
    (∃ bc, Node.best_child st nd = some bc ∧
      bc ∈ nd.children.filterMap (fun i => st.get? i) ∧
      (∀ d ∈ nd.children.filterMap (fun i => st.get? i),
        uctWeight nd.visits nd.exploration_weight d ≤
          uctWeight nd.visits nd.exploration_weight bc) ∧
      (∃ k, (nd.children.filterMap (fun i => st.get? i)).get? k = some bc ∧
        ∀ j y, j < k →
          (nd.children.filterMap (fun i => st.get? i)).get? j = some y →
          uctWeight nd.visits nd.exploration_weight y <
            uctWeight nd.visits nd.exploration_weight bc) ∧
      ((∃ d ∈ nd.children.filterMap (fun i => st.get? i), d.visits = 0) →
        bc.visits = 0)) := by
  refine ⟨fun d hd => by rw [uctWeight, if_pos hd],
    fun d hd => by rw [uctWeight, if_neg hd]; norm_cast, ?_⟩
  have hwne : (nd.children.filterMap (fun i => st.get? i)).map
      (uctWeight nd.visits nd.exploration_weight) ≠ [] := by
    intro h
    exact hne (List.map_eq_nil.mp h)
  have hlt : argmaxIdx ((nd.children.filterMap (fun i => st.get? i)).map
      (uctWeight nd.visits nd.exploration_weight)) <
      (nd.children.filterMap (fun i => st.get? i)).length := by
    have := argmaxIdx_lt_length hwne
    rwa [List.length_map] at this
  obtain ⟨bc, hbc⟩ := get_of_lt_length hlt
  have hwbc : uctWeight nd.visits nd.exploration_weight bc =
      listMax ((nd.children.filterMap (fun i => st.get? i)).map
        (uctWeight nd.visits nd.exploration_weight)) := by
    have hg := get_argmaxIdx hwne
    rw [List.get?_map, hbc] at hg
    exact Option.some.inj hg
  refine ⟨bc, hbc, List.get?_mem hbc, ?_, ⟨_, hbc, ?_⟩, ?_⟩
  · intro d hd
    rw [hwbc]
    exact le_listMax (List.mem_map_of_mem _ hd)
  · intro j y hj hy
    rw [hwbc]
    refine earlier_lt_listMax j (uctWeight nd.visits nd.exploration_weight y) hj ?_
    rw [List.get?_map, hy]
    rfl
  · rintro ⟨d, hd, hd0⟩
    by_contra hbc0
    have htop : uctWeight nd.visits nd.exploration_weight d = ⊤ := by
      rw [uctWeight, if_pos hd0]
    have hle : (⊤ : EReal) ≤ uctWeight nd.visits nd.exploration_weight bc := by
      rw [hwbc]
      rw [← htop]
      exact le_listMax (List.mem_map_of_mem _ hd)
    have : uctWeight nd.visits nd.exploration_weight bc = ⊤ := top_le_iff.mp hle
    rw [uctWeight, if_neg hbc0] at this
    exact EReal.coe_ne_top _ this

/-- Concrete parent for the best_child witness: one visit, two children. -/
def c5Parent : Node :=
  { original_prompt := "p", answer := "a", parent := none, max_children := 2,
    exploration_weight := 2, children := [0, 1], visits := 1, value := 0,
    level := 0 }

/-- Concrete visited child for the best_child witness. -/
def c5Visited : Node :=
  { original_prompt := "p", answer := "v", parent := none, max_children := 2,
    exploration_weight := 2, children := [], visits := 1, value := 5,
    level := 1 }

/-- Concrete unvisited child for the best_child witness. -/
def c5Unvisited : Node :=
  { original_prompt := "p", answer := "u", parent := none, max_children := 2,
    exploration_weight := 2, children := [], visits := 0, value := 0,
    level := 1 }

/-- Witness: on a concrete arena holding one visited child with value 5 and
one unvisited child, best_child selects a child with zero visits. -/
theorem c5_witness :
    ∃ bc, Node.best_child [c5Visited, c5Unvisited] c5Parent = some bc ∧
      bc.visits = 0 := by
  obtain ⟨-, -, bc, hbc, -, -, -, hunv⟩ :=
    c5_best_child [c5Visited, c5Unvisited] c5Parent
      (by exact List.cons_ne_nil _ _) (by exact le_refl 1)
  exact ⟨bc, hbc, hunv ⟨c5Unvisited,
    List.mem_cons_of_mem _ (List.mem_cons_self _ _), rfl⟩⟩

theorem expandAdd_eq {st : List Node} {i : ℕ} {nd : Node}
    (hnd : st.get? i = some nd) (prompt : String) (maxC : ℕ) (w : ℚ) :
    expandAdd prompt maxC w st i =
      (st ++ [Node.make st prompt nd.answer maxC w (some i)]).set i
        (nd.add_child st.length) := by
  show (match st.get? i with
    | none => st
    | some nd =>
      (st ++ [Node.make st prompt nd.answer maxC w (some i)]).set i
        (nd.add_child st.length)) = _
  rw [hnd]

theorem expandRefine_eq {st : List Node} {c : ℕ} {cd : Node}
    (hcd : st.get? c = some cd) (fb : String → String)
    (imp : String → String → String) :
    expandRefine fb imp st c =
      st.set c { cd with answer := imp cd.answer (fb cd.answer) } := by
  show (match st.get? c with
    | none => st
    | some cd => st.set c { cd with answer := imp cd.answer (fb cd.answer) }) = _
  rw [hcd]

theorem expandAdd_get_parent {st : List Node} {i : ℕ} {nd : Node}
    (hnd : st.get? i = some nd) (prompt : String) (maxC : ℕ) (w : ℚ) :
    (expandAdd prompt maxC w st i).get? i = some (nd.add_child st.length) := by
  have hlen : i < st.length := (List.get?_eq_some.mp hnd).1
  rw [expandAdd_eq hnd]
  rw [List.get?_set_eq_of_lt]
  rw [List.length_append]
  omega

theorem expandAdd_get_child {st : List Node} {i : ℕ} {nd : Node}
    (hnd : st.get? i = some nd) (prompt : String) (maxC : ℕ) (w : ℚ) :
    (expandAdd prompt maxC w st i).get? st.length =
      some (Node.make st prompt nd.answer maxC w (some i)) := by
  have hlen : i < st.length := (List.get?_eq_some.mp hnd).1
  rw [expandAdd_eq hnd]
  rw [List.get?_set_ne _ _ (by omega)]
  exact List.get?_concat_length _ _

theorem expandAdd_get_other {st : List Node} {i : ℕ} {nd : Node}
    (hnd : st.get? i = some nd) (prompt : String) (maxC : ℕ) (w : ℚ)
    {j : ℕ} (hji : j ≠ i) (hjl : j ≠ st.length) :
    (expandAdd prompt maxC w st i).get? j = st.get? j := by
  rw [expandAdd_eq hnd]
  rw [List.get?_set_ne _ _ (fun h => hji h.symm)]
  by_cases hlt : j < st.length
  · exact List.get?_append hlt
  · rw [List.get?_eq_none.mpr, List.get?_eq_none.mpr]
    · omega
    · rw [List.length_append]
      simp only [List.length_cons, List.length_nil]
      omega

theorem expandAdd_length {st : List Node} {i : ℕ} {nd : Node}
    (hnd : st.get? i = some nd) (prompt : String) (maxC : ℕ) (w : ℚ) :
    (expandAdd prompt maxC w st i).length = st.length + 1 := by
  rw [expandAdd_eq hnd, List.length_set, List.length_append]
  rfl

theorem make_refined_eq_newChild {st : List Node} {i : ℕ} {nd : Node}
    (hnd : st.get? i = some nd) (fb : String → String)
    (imp : String → String → String) (prompt : String) (maxC : ℕ) (w : ℚ) :
    { Node.make st prompt nd.answer maxC w (some i) with
        answer := imp (Node.make st prompt nd.answer maxC w (some i)).answer
          (fb (Node.make st prompt nd.answer maxC w (some i)).answer) } =
      newChild fb imp prompt maxC w nd i := by
  simp only [Node.make, newChild, hnd]

theorem expandStep_get_parent {st : List Node} {i : ℕ} {nd : Node}
    (hnd : st.get? i = some nd) (fb : String → String)
    (imp : String → String → String) (prompt : String) (maxC : ℕ) (w : ℚ) :
    (expandStep fb imp prompt maxC w st i).get? i =
      some (nd.add_child st.length) := by
  have hlen : i < st.length := (List.get?_eq_some.mp hnd).1
  unfold expandStep
  rw [expandRefine_eq (expandAdd_get_child hnd prompt maxC w) fb imp]
  rw [List.get?_set_ne _ _ (by omega)]
  exact expandAdd_get_parent hnd prompt maxC w

theorem expandStep_get_child {st : List Node} {i : ℕ} {nd : Node}
    (hnd : st.get? i = some nd) (fb : String → String)
    (imp : String → String → String) (prompt : String) (maxC : ℕ) (w : ℚ) :
    (expandStep fb imp prompt maxC w st i).get? st.length =
      some (newChild fb imp prompt maxC w nd i) := by
  have hlen : st.length < (expandAdd prompt maxC w st i).length := by
    rw [expandAdd_length hnd]
    omega
  unfold expandStep
  rw [expandRefine_eq (expandAdd_get_child hnd prompt maxC w) fb imp]
  rw [List.get?_set_eq_of_lt _ hlen]
  rw [make_refined_eq_newChild hnd fb imp prompt maxC w]

theorem expandStep_get_other {st : List Node} {i : ℕ} {nd : Node}
    (hnd : st.get? i = some nd) (fb : String → String)
    (imp : String → String → String) (prompt : String) (maxC : ℕ) (w : ℚ)
    {j : ℕ} (hji : j ≠ i) (hjl : j ≠ st.length) :
    (expandStep fb imp prompt maxC w st i).get? j = st.get? j := by
  unfold expandStep
  rw [expandRefine_eq (expandAdd_get_child hnd prompt maxC w) fb imp]
  rw [List.get?_set_ne _ _ (fun h => hjl h.symm)]
  exact expandAdd_get_other hnd prompt maxC w hji hjl

theorem expandStep_length {st : List Node} {i : ℕ} {nd : Node}
    (hnd : st.get? i = some nd) (fb : String → String)
    (imp : String → String → String) (prompt : String) (maxC : ℕ) (w : ℚ) :
    (expandStep fb imp prompt maxC w st i).length = st.length + 1 := by
  unfold expandStep
  rw [expandRefine_eq (expandAdd_get_child hnd prompt maxC w) fb imp]
  rw [List.length_set]
  exact expandAdd_length hnd prompt maxC w

theorem expandIter_facts (fb : String → String) (imp : String → String → String)
    (prompt : String) (maxC : ℕ) (w : ℚ) :
    ∀ (n : ℕ) (st : List Node) (i : ℕ) (nd : Node), st.get? i = some nd →
      ((fun s => expandStep fb imp prompt maxC w s i)^[n] st).get? i =
        some { nd with children := nd.children ++ List.range' st.length n } ∧
      ((fun s => expandStep fb imp prompt maxC w s i)^[n] st).length =
        st.length + n ∧
      (∀ k, k < n →
        ((fun s => expandStep fb imp prompt maxC w s i)^[n] st).get?
          (st.length + k) = some (newChild fb imp prompt maxC w nd i)) ∧
      (∀ j, j ≠ i → (j < st.length ∨ st.length + n ≤ j) →
        ((fun s => expandStep fb imp prompt maxC w s i)^[n] st).get? j =
          st.get? j) := by
  intro n
  induction n with
  | zero =>
    intro st i nd hnd
    have hrec : { nd with children := nd.children ++ List.range' st.length 0 } = nd := by
      simp
    refine ⟨?_, by simp, fun k hk => absurd hk (Nat.not_lt_zero k), fun j _ _ => rfl⟩
    show st.get? i = some { nd with children := nd.children ++ List.range' st.length 0 }
    rw [hrec, hnd]
  | succ n ih =>
    intro st i nd hnd
    have hil : i < st.length := (List.get?_eq_some.mp hnd).1
    rw [Function.iterate_succ_apply]
    set st1 := expandStep fb imp prompt maxC w st i with hst1
    have hnd1 : st1.get? i = some (nd.add_child st.length) :=
      expandStep_get_parent hnd fb imp prompt maxC w
    have hlen1 : st1.length = st.length + 1 :=
      expandStep_length hnd fb imp prompt maxC w
    obtain ⟨ih1, ih2, ih3, ih4⟩ := ih st1 i (nd.add_child st.length) hnd1
    refine ⟨?_, ?_, ?_, ?_⟩
    · rw [ih1]
      have hrec : { nd.add_child st.length with
          children := (nd.add_child st.length).children ++ List.range' st1.length n } =
          { nd with children := nd.children ++ List.range' st.length (n + 1) } := by
        simp only [Node.add_child, hlen1, Node.mk.injEq, List.append_assoc,
          List.range'_succ, List.singleton_append, true_and, and_true]
      rw [hrec]
    · rw [ih2, hlen1]
      omega
    · intro k hk
      cases k with
      | zero =>
        rw [Nat.add_zero]
        rw [ih4 st.length (by omega) (Or.inl (by omega))]
        exact expandStep_get_child hnd fb imp prompt maxC w
      | succ kx =>
        have := ih3 kx (by omega)
        rw [hlen1] at this
        rw [show st.length + (kx + 1) = st.length + 1 + kx by omega]
        rw [this]
        rfl
    · intro j hji hj
      have hj1 : j < st1.length ∨ st1.length + n ≤ j := by
        rw [hlen1]
        rcases hj with h | h
        · left
          omega
        · right
          omega
      rw [ih4 j hji hj1]
      refine expandStep_get_other hnd fb imp prompt maxC w hji ?_
      rcases hj with h | h <;> omega

theorem expandState_eq {st : List Node} {i : ℕ} {nd : Node}
    (hnd : st.get? i = some nd) (fb : String → String)
    (imp : String → String → String) (prompt : String) (maxC : ℕ) (w : ℚ) :
    expandState fb imp prompt maxC w st i =
      (fun s => expandStep fb imp prompt maxC w s i)^[maxC - nd.children.length]
        st := by
  show (match st.get? i with
    | none => st
    | some nd =>
      (fun s => expandStep fb imp prompt maxC w s i)^[maxC - nd.children.length]
        st) = _
  rw [hnd]

theorem expandChoice_eq {st : List Node} {i : ℕ} {nd2 : Node}
    (fb : String → String) (imp : String → String → String) (prompt : String)
    (maxC : ℕ) (w : ℚ)
    (h2 : (expandState fb imp prompt maxC w st i).get? i = some nd2)
    (pick : ℕ) :
    expandChoice fb imp prompt maxC w st i pick = nd2.children.get? pick := by
  show (match (expandState fb imp prompt maxC w st i).get? i with
    | none => none
    | some nd => nd.children.get? pick) = _
  rw [h2]

/-- C2 (amended): expansion of a non-fully-expanded node creates exactly
maxChildren minus len(children) new children, appended in allocation order;
each new child starts as a copy of the parent's current answer, is appended
to the parent before its answer is refined, and ends refined from the
parent's answer one level deeper; the node carried into simulation is drawn
from the full children list of the node — pre-existing children included —
which coincides with the newly created children exactly when the node had
no children before expansion. -/
theorem c2_expand (fb : String → String) (imp : String → String → String)
    (prompt : String) (maxC : ℕ) (w : ℚ) (st : List Node) (i : ℕ) (nd : Node)
    (hnd : st.get? i = some nd) :
    (expandState fb imp prompt maxC w st i).get? i =
      some { nd with children :=
        nd.children ++ List.range' st.length (maxC - nd.children.length) } ∧
    (∀ k, k < maxC - nd.children.length →
      (expandState fb imp prompt maxC w st i).get? (st.length + k) =
        some (newChild fb imp prompt maxC w nd i)) ∧
    ((expandAdd prompt maxC w st i).get? i = some (nd.add_child st.length) ∧
      (expandAdd prompt maxC w st i).get? st.length =
        some (Node.make st prompt nd.answer maxC w (some i)) ∧
      (Node.make st prompt nd.answer maxC w (some i)).answer = nd.answer) ∧
    (∀ pick, expandChoice fb imp prompt maxC w st i pick =
      (nd.children ++
        List.range' st.length (maxC - nd.children.length)).get? pick) ∧
    (nd.children = [] →
      ∀ pick c, expandChoice fb imp prompt maxC w st i pick = some c →
        c ∈ List.range' st.length (maxC - nd.children.length)) := by
  obtain ⟨hparent, hlen, hnew, hother⟩ :=
    expandIter_facts fb imp prompt maxC w (maxC - nd.children.length) st i nd hnd
  rw [← expandState_eq hnd fb imp prompt maxC w] at hparent hlen hnew hother
  have hchoice : ∀ pick, expandChoice fb imp prompt maxC w st i pick =
      (nd.children ++
        List.range' st.length (maxC - nd.children.length)).get? pick :=
    fun pick => expandChoice_eq fb imp prompt maxC w hparent pick
  refine ⟨hparent, hnew, ⟨expandAdd_get_parent hnd prompt maxC w,
    expandAdd_get_child hnd prompt maxC w, rfl⟩, hchoice, ?_⟩
  intro hempty pick c hc
  rw [hchoice pick, hempty, List.nil_append] at hc
  rw [hempty]
  exact List.get?_mem hc

/-- C2 counterexample: expanding a node that already has one child (index 1)
with cap 2 creates one new child (index 2), yet random.choice draws from the
full children list, so draw index 0 returns the pre-existing child 1, which
is not among the newly created children. -/
theorem c2_counterexample :
    expandChoice c2fb c2imp "p" 2 1 [c2Root, c2Child] 0 0 = some 1 ∧
    1 ∈ c2Root.children ∧
    1 ∉ List.range' ([c2Root, c2Child] : List Node).length
      (2 - c2Root.children.length) := by
  refine ⟨rfl, by decide, by decide⟩

/-- Witness: expanding a childless root with cap 2 appends exactly the two
new children 1 and 2, and child 1 carries the refined answer one level
below the root. -/
theorem c2_witness :
    (expandState c2fb c2imp "p" 2 1 [c2Single] 0).get? 0 =
      some { c2Single with children := [1, 2] } ∧
    (expandState c2fb c2imp "p" 2 1 [c2Single] 0).get? 1 =
      some (newChild c2fb c2imp "p" 2 1 c2Single 0) := by
  have h := c2_expand c2fb c2imp "p" 2 1 [c2Single] 0 c2Single rfl
  exact ⟨h.1, h.2.1 0 (by decide)⟩

theorem expandState_invalid {st : List Node} {i : ℕ} (h : st.get? i = none)
    (fb : String → String) (imp : String → String → String) (prompt : String)
    (maxC : ℕ) (w : ℚ) : expandState fb imp prompt maxC w st i = st := by
  show (match st.get? i with
    | none => st
    | some nd =>
      (fun s => expandStep fb imp prompt maxC w s i)^[maxC - nd.children.length]
        st) = st
  rw [h]

theorem treeInv_init (prompt answer : String) (maxC : ℕ) (w : ℚ) :
    TreeInv maxC [Node.make [] prompt answer maxC w none] := by
  intro i nd hnd
  cases i with
  | zero =>
    obtain rfl : Node.make [] prompt answer maxC w none = nd :=
      Option.some.inj hnd
    refine ⟨by simp [Node.make], ?_, by simp [Node.make], by simp [Node.make],
      rfl⟩
    intro p hp
    simp [Node.make] at hp
  | succ ix =>
    simp at hnd

theorem treeInv_backpropagate {maxC : ℕ} {st : List Node}
    (hinv : TreeInv maxC st) (oi : Option ℕ) (r : ℚ) :
    TreeInv maxC (backpropagate st oi r) := by
  intro j nd2 hnd2
  rw [backpropagate_get] at hnd2
  obtain ⟨nd, hnd, hbump⟩ := Option.map_eq_some'.mp hnd2
  obtain rfl : bumpN r ((parentChain st oi).count j) nd = nd2 := hbump
  obtain ⟨h1, h2, h3, h4, h5⟩ := hinv j nd hnd
  refine ⟨h1, ?_, by simp [bumpN]; omega, h4, h5⟩
  intro p hp
  obtain ⟨hpi, pd, hpd, hlev⟩ := h2 p hp
  refine ⟨hpi, bumpN r ((parentChain st oi).count p) pd, ?_, hlev⟩
  rw [backpropagate_get, hpd]
  rfl

theorem treeInv_expandState {maxC : ℕ} {st : List Node} (hinv : TreeInv maxC st)
    (fb : String → String) (imp : String → String → String) (prompt : String)
    (w : ℚ) (i : ℕ) : TreeInv maxC (expandState fb imp prompt maxC w st i) := by
  cases hnd : st.get? i with
  | none =>
    rw [expandState_invalid hnd]
    exact hinv
  | some nd =>
    obtain ⟨hparent, hlen, hnew, hother⟩ :=
      expandIter_facts fb imp prompt maxC w (maxC - nd.children.length) st i nd
        hnd
    rw [← expandState_eq hnd fb imp prompt maxC w] at hparent hlen hnew hother
    obtain ⟨hiff, hpar, hvis, hchl, hmc⟩ := hinv i nd hnd
    have hil : i < st.length := (List.get?_eq_some.mp hnd).1
    intro j nd2 hnd2
    by_cases hji : j = i
    · subst hji
      rw [hparent] at hnd2
      obtain rfl : { nd with children :=
          nd.children ++ List.range' st.length (maxC - nd.children.length) } =
            nd2 :=
        Option.some.inj hnd2
      refine ⟨hiff, ?_, hvis, ?_, hmc⟩
      · intro p hp
        obtain ⟨hpi, pd, hpd, hlev⟩ := hpar p hp
        refine ⟨hpi, pd, ?_, hlev⟩
        rw [hother p (by omega) (Or.inl (by omega))]
        exact hpd
      · simp only [List.length_append, List.length_range']
        omega
    · by_cases hjlt : j < st.length
      · rw [hother j hji (Or.inl hjlt)] at hnd2
        obtain ⟨h1, h2, h3, h4, h5⟩ := hinv j nd2 hnd2
        refine ⟨h1, ?_, h3, h4, h5⟩
        intro p hp
        obtain ⟨hpi, pd, hpd, hlev⟩ := h2 p hp
        by_cases hpieq : p = i
        · subst hpieq
          refine ⟨hpi, _, hparent, ?_⟩
          have hpdnd : pd = nd := Option.some.inj (hpd.symm.trans hnd)
          rw [hlev, hpdnd]
        · refine ⟨hpi, pd, ?_, hlev⟩
          rw [hother p hpieq (Or.inl (by omega))]
          exact hpd
      · have hjub : j < st.length + (maxC - nd.children.length) := by
          by_contra hcon
          have hnone : (expandState fb imp prompt maxC w st i).get? j = none :=
            List.get?_eq_none.mpr (by rw [hlen]; omega)
          rw [hnone] at hnd2
          cases hnd2
        obtain ⟨k, hk, rfl⟩ : ∃ k, k < maxC - nd.children.length ∧
            j = st.length + k := ⟨j - st.length, by omega, by omega⟩
        rw [hnew k hk] at hnd2
        obtain rfl : newChild fb imp prompt maxC w nd i = nd2 :=
          Option.some.inj hnd2
        refine ⟨?_, ?_, by simp [newChild], by simp [newChild], rfl⟩
        · constructor
          · intro hp
            simp [newChild] at hp
          · intro hl
            simp [newChild] at hl
        · intro p hp
          have hpe : i = p := by
            simpa [newChild] using hp
          subst hpe
          refine ⟨by omega, _, hparent, ?_⟩
          simp [newChild]

theorem reachable_treeInv {prompt : String} {maxC : ℕ} {w : ℚ}
    {st : List Node} (h : Reachable prompt maxC w st) : TreeInv maxC st := by
  induction h with
  | init answer => exact treeInv_init prompt answer maxC w
  | expand i fb imp _ ih => exact treeInv_expandState ih fb imp prompt w i
  | backprop i r _ ih => exact treeInv_backpropagate ih (some i) r

/-- C10: in every tree state reachable through the driver's operations (root
construction, expansion via add_child, backpropagation), every node has
level 0 iff it has no parent and otherwise sits one level below its parent,
has at least one visit from construction onward, and holds at most
maxChildren children even though add_child itself performs no cap check. -/
theorem c10_invariants (prompt : String) (maxC : ℕ) (w : ℚ) (st : List Node)
    (h : Reachable prompt maxC w st) :
    ∀ i nd, st.get? i = some nd →
      (nd.parent = none ↔ nd.level = 0) ∧
      (∀ p, nd.parent = some p →
        ∃ pd, st.get? p = some pd ∧ nd.level = pd.level + 1) ∧
      1 ≤ nd.visits ∧ nd.children.length ≤ nd.max_children := by
  intro i nd hnd
  obtain ⟨h1, h2, h3, h4, -⟩ := reachable_treeInv h i nd hnd
  exact ⟨h1, fun p hp => (h2 p hp).2, h3, h4⟩

/-- Witness: the invariants instantiated at the freshly constructed root of
a concrete driver run. -/
theorem c10_witness :
    1 ≤ (Node.make [] "p" "a" 3 (1 : ℚ) none).visits ∧
    ((Node.make [] "p" "a" 3 (1 : ℚ) none).parent = none ↔
      (Node.make [] "p" "a" 3 (1 : ℚ) none).level = 0) := by
  obtain ⟨h1, -, h3, -⟩ :=
    c10_invariants "p" 3 1 [Node.make [] "p" "a" 3 (1 : ℚ) none]
      (Reachable.init "a") 0 (Node.make [] "p" "a" 3 (1 : ℚ) none) rfl
  exact ⟨h3, h1⟩

/-- C4 counterexample: constructing the driver with the repository's default
request settings (temperature 1.0, top_p 0.9) leaves temperature 0.0 and
top_p 1.0 in the stored settings dict, because generate_initial_answer
assigns into the shared dict in place; the forcing is therefore not limited
to the initial call. -/
theorem c4_counterexample :
    (MCTS.init (fun _ _ => "ans") "p" default_request_settings 10 3 true
      1).1.request_settings.temperature = 0 ∧
    default_request_settings.temperature = 1 ∧
    (MCTS.init (fun _ _ => "ans") "p" default_request_settings 10 3 true
      1).1.request_settings.top_p = 1 ∧
    default_request_settings.top_p = 9 / 10 :=
  ⟨rfl, rfl, rfl, rfl⟩

/-- C4 (amended): at driver construction exactly one collaborator call
obtains the initial answer, issued with temperature 0 and top_p 1; because
this forcing mutates the shared settings dict in place, the stored request
settings used by every subsequent critique, refinement and rating call also
carry temperature 0 and top_p 1 instead of the original caller values. -/
theorem c4_init_settings (oracle : String → RequestSettings → String)
    (prompt : String) (rs : RequestSettings) (iterations maxC : ℕ)
    (verbose : Bool) (w : ℚ) :
    (MCTS.init oracle prompt rs iterations maxC verbose w).2 =
      [(prompt, { rs with temperature := 0, top_p := 1 })] ∧
    (MCTS.init oracle prompt rs iterations maxC verbose w).1.initial_answer =
      oracle prompt { rs with temperature := 0, top_p := 1 } ∧
    (MCTS.init oracle prompt rs iterations maxC verbose w).1.request_settings =
      { rs with temperature := 0, top_p := 1 } :=
  ⟨rfl, rfl, rfl⟩

/-- C3: the rating call in MCTS.simulate does not bind against the signature
of generate_rating — it passes a request_settings keyword the function does
not declare and leaves the required rating_schema parameter unbound — so
simulate raises TypeError instead of producing a reward.  The body of
generate_rating itself, invoked correctly, returns exactly the output of
the Reward Normalizer on the integer rating field, which lies in
[0, 0.95]. -/
theorem c3_rating_binding_and_bounds :
    kwCallBindsOk generate_rating_params simulate_rating_kwargs = false ∧
    (∀ resp : RatingResponse, ∃ q, generate_rating resp = .ok q ∧
      0 ≤ q ∧ q ≤ 95 / 100) := by
  refine ⟨by decide, fun resp => ?_⟩
  exact ⟨_, rfl, clampDiv_bounds _⟩

/-- C1: MCTS.search returns the answer of the most visited child of the
root, ties resolved by first occurrence (Python max replaces its best only
on strictly more visits); but the driver result cannot expose the tree and
the valid path: MonteCarloLLM.generate calls get_best_path and get_tree,
and the MCTS class defines no method of either name, so building the
MCTSResult fails with AttributeError after search completes. -/
theorem c1_search_return_and_missing_attrs :
    ("get_best_path" ∈ generateResultAttrs ∧
      "get_best_path" ∉ mctsMethodNames) ∧
    ("get_tree" ∈ generateResultAttrs ∧ "get_tree" ∉ mctsMethodNames) ∧
    (∀ st root, st.get? 0 = some root → searchReturn st =
      (Node.most_visited_child st root).map Node.answer) ∧
    (∀ (b : Node) (l : List Node),
      pickMaxVisits b l ∈ b :: l ∧
      (∀ d ∈ b :: l, d.visits ≤ (pickMaxVisits b l).visits) ∧
      ∃ k, (b :: l).get? k = some (pickMaxVisits b l) ∧
        ∀ j y, j < k → (b :: l).get? j = some y →
          y.visits < (pickMaxVisits b l).visits) := by
  refine ⟨⟨by decide, by decide⟩, ⟨by decide, by decide⟩, ?_, ?_⟩
  · intro st root hroot
    unfold searchReturn
    rw [hroot]
    rfl
  · intro b l
    refine ⟨pickMaxVisits_mem l b, fun d hd => ?_, pickMaxVisits_first l b⟩
    rcases List.mem_cons.mp hd with h | h
    · rw [h]
      exact (pickMaxVisits_le l b).1
    · exact (pickMaxVisits_le l b).2 d h
